import Mathlib

/-!
Verification of the adita ABI code generator.

The development shallowly embeds the core of the repository:
`getAbiKey`, `removeDuplicateAbis` and the per-destination driver step from
`src/index.ts`, and `createLiteralFor`, `createObjectFromObject`,
`createFragmentDeclaration` and `createContractFileForAbi` from the codegen
module.  JavaScript runtime values are modelled by the inductive `JSValue`,
TypeScript AST literal nodes by `Lit`, and the two emitted node shapes
(exported const declarations and the aggregate default export) by `Node`.
Fallible code is modelled with `Except String`.
-/

namespace Adita

/-- A JSON-like JavaScript runtime value, as handled by `createLiteralFor`.
Numbers are included only for their shape (the generator never inspects the
numeric value), so an `Int` payload suffices. -/
inductive JSValue where
  | null
  | undefined
  | str (s : String)
  | num (n : Int)
  | boolean (b : Bool)
  | arr (elems : List JSValue)
  | obj (props : List (String × JSValue))

/-- A TypeScript literal expression node, abstracting
`ts.NullLiteral | ts.StringLiteral | ts.BooleanLiteral |
ts.ArrayLiteralExpression | ts.ObjectLiteralExpression`. -/
inductive Lit where
  | nullLit
  | strLit (s : String)
  | boolLit (b : Bool)
  | arrayLit (elems : List Lit)
  | objectLit (props : List (String × Lit))

mutual

/-- Embedding of `createLiteralFor` (codegen module, lines 5-31).
The source dispatches on `switch (typeof value)`.  Note that its `case null:`
arm compares the string returned by `typeof` against the value `null`, which
never matches (`typeof null` is the string `"object"`); a `null` value
therefore falls through to the object branch, where `Object.entries(null)`
raises a `TypeError`.  Strings, booleans, arrays and plain objects are handled
by their branches, and every other `typeof` result (`"number"`,
`"undefined"`, `"function"`, ...) hits the `default:` arm, producing the
placeholder string literal. -/
def createLiteralFor : JSValue → Except String Lit
  | JSValue.str s => Except.ok (Lit.strLit s)
  | JSValue.boolean b =>
      Except.ok (if b then Lit.boolLit true else Lit.boolLit false)
  | JSValue.null =>
      Except.error "TypeError: Cannot convert undefined or null to object"
  | JSValue.arr elems => Except.map Lit.arrayLit (literalsForList elems)
  | JSValue.obj props => createObjectFromObject props
  | JSValue.undefined => Except.ok (Lit.strLit "not yet implemented")
  | JSValue.num _ => Except.ok (Lit.strLit "not yet implemented")

/-- The `value.map((element) => createLiteralFor(element))` call in the array
branch of `createLiteralFor`, with the first raised error propagated. -/
def literalsForList : List JSValue → Except String (List Lit)
  | [] => Except.ok []
  | v :: rest =>
    match createLiteralFor v with
    | Except.error e => Except.error e
    | Except.ok l =>
      match literalsForList rest with
      | Except.error e => Except.error e
      | Except.ok ls => Except.ok (l :: ls)

/-- Embedding of `createObjectFromObject` (codegen module, lines 33-38):
`Object.entries` of a parsed-JSON object is its key/value list in insertion
order, modelled here directly as the `props` list. -/
def createObjectFromObject (props : List (String × JSValue)) :
    Except String Lit :=
  Except.map Lit.objectLit (literalsForProps props)

/-- The `Object.entries(fragment).map(([key, value]) => ...)` traversal inside
`createObjectFromObject`. -/
def literalsForProps : List (String × JSValue) →
    Except String (List (String × Lit))
  | [] => Except.ok []
  | (k, v) :: rest =>
    match createLiteralFor v with
    | Except.error e => Except.error e
    | Except.ok l =>
      match literalsForProps rest with
      | Except.error e => Except.error e
      | Except.ok ls => Except.ok ((k, l) :: ls)

end

/-- An ABI input/output parameter descriptor, per the `Fragment` interface of
the codegen module (lines 40-56). -/
structure Param where
  name : Option String
  type : String
  indexed : Option Bool
  internalType : Option String
  deriving DecidableEq, Repr

/-- An ABI fragment record, per the `Fragment` interface of the codegen
module (lines 40-56): `name` and `outputs` are optional, `inputs` is
required. -/
structure Fragment where
  name : Option String
  type : String
  inputs : List Param
  outputs : Option (List Param)
  stateMutability : Option String
  anonymous : Option Bool
  deriving DecidableEq, Repr

/-- JavaScript `x || ''` for an optional string field: `undefined` and the
empty string are falsy, so both map to the empty string. -/
def jsOrEmpty : Option String → String
  | none => ""
  | some s => if s = "" then "" else s

/-- JavaScript `!!x` for an optional string field: truthy exactly when the
field is present and nonempty. -/
def jsTruthyStr : Option String → Bool
  | none => false
  | some s => !(s = "")

/-- The default JavaScript `Array.prototype.sort()` on a string array:
a stable sort by code-unit lexicographic order, modelled with Mathlib's
stable `insertionSort` over the `String` linear order (for the ASCII type
names that occur in ABIs the two orders agree). -/
def sortStrings (l : List String) : List String :=
  List.insertionSort (fun a b => a ≤ b) l

/-- Embedding of `getAbiKey` (src/index.ts, lines 17-36).  The
`abi.inputs ? ... : ''` guard always takes the first branch in the model
because `inputs` is a required array field and arrays (even empty ones) are
truthy in JavaScript; the `abi.outputs ? ... : ''` guard takes the second
branch exactly when `outputs` is absent. -/
def getAbiKey (abi : Fragment) : String :=
  let name := jsOrEmpty abi.name
  let ty := if abi.type = "" then "" else abi.type
  let inputTypes :=
    String.intercalate "," (sortStrings (abi.inputs.map Param.type))
  let outputTypes :=
    match abi.outputs with
    | none => ""
    | some outs => String.intercalate "," (sortStrings (outs.map Param.type))
  name ++ ":" ++ ty ++ ":" ++ inputTypes ++ ":" ++ outputTypes

/-- The loop of `removeDuplicateAbis` (src/index.ts, lines 38-52): walk the
list, keeping a fragment when its key is not in the `seen` set and adding the
key to the set. -/
def removeDuplicateAbisGo : List Fragment → List String → List Fragment
  | [], _ => []
  | abi :: rest, seen =>
    if getAbiKey abi ∈ seen then removeDuplicateAbisGo rest seen
    else abi :: removeDuplicateAbisGo rest (getAbiKey abi :: seen)

/-- Embedding of `removeDuplicateAbis` (src/index.ts, lines 38-52). -/
def removeDuplicateAbis (abis : List Fragment) : List Fragment :=
  removeDuplicateAbisGo abis []

/-- JavaScript `String.prototype.replace` with a plain-string pattern
replaces only the first occurrence of the pattern; character-list worker. -/
def replaceFirstChars (pat rep : List Char) : List Char → List Char
  | [] => if pat = [] then rep else []
  | c :: rest =>
    if pat.isPrefixOf (c :: rest) then rep ++ (c :: rest).drop pat.length
    else c :: replaceFirstChars pat rep rest

/-- JavaScript `s.replace(pat, rep)` for plain-string `pat`: first occurrence
only. -/
def jsReplaceFirst (s pat rep : String) : String :=
  String.mk (replaceFirstChars pat.data rep.data s.data)

/-- An emitted top-level node: an exported `const` declaration
(`createVariableStatement` wrapping the fragment literal) or the aggregate
default export (`createExportAssignment` over the identifier array). -/
inductive Node where
  | varDecl (identifier : String) (value : Lit)
  | exportDefault (identifiers : List String)

/-- The key/value entries of a parsed `Param` record, in interface field
order; absent optional fields contribute no entry, as in JSON. -/
def paramEntries (p : Param) : List (String × JSValue) :=
  (match p.name with
   | none => []
   | some n => [("name", JSValue.str n)]) ++
  [("type", JSValue.str p.type)] ++
  (match p.indexed with
   | none => []
   | some b => [("indexed", JSValue.boolean b)]) ++
  (match p.internalType with
   | none => []
   | some s => [("internalType", JSValue.str s)])

/-- A `Param` record as a JavaScript runtime value. -/
def paramValue (p : Param) : JSValue :=
  JSValue.obj (paramEntries p)

/-- The key/value entries of a parsed `Fragment` record, in interface field
order; absent optional fields contribute no entry, as in JSON. -/
def fragmentEntries (f : Fragment) : List (String × JSValue) :=
  (match f.name with
   | none => []
   | some n => [("name", JSValue.str n)]) ++
  [("type", JSValue.str f.type),
   ("inputs", JSValue.arr (f.inputs.map paramValue))] ++
  (match f.outputs with
   | none => []
   | some outs => [("outputs", JSValue.arr (outs.map paramValue))]) ++
  (match f.stateMutability with
   | none => []
   | some s => [("stateMutability", JSValue.str s)]) ++
  (match f.anonymous with
   | none => []
   | some b => [("anonymous", JSValue.boolean b)])

/-- The disambiguated identifier built in `createFragmentDeclaration`
(codegen module, lines 69-73): the name, an underscore, and the input types
joined with underscores, each with its first `[]` replaced by `Array`. -/
def explicitIdentifierFor (fragment : Fragment) : String :=
  jsOrEmpty fragment.name ++ "_" ++
    String.intercalate "_"
      (fragment.inputs.map (fun input => jsReplaceFirst input.type "[]" "Array"))

/-- Embedding of `createFragmentDeclaration` (codegen module, lines 58-97):
throws when `fragment['name']` is falsy, otherwise builds the identifier
(plain or disambiguated per `options.explicitIdentifier`) and the exported
const declaration holding the fragment's object literal. -/
def createFragmentDeclaration (fragment : Fragment)
    (explicitIdentifier : Bool) : Except String (String × Node) :=
  if jsTruthyStr fragment.name = false then
    Except.error "Unable to create Identifier for Fragment"
  else
    let identifierString :=
      if explicitIdentifier then explicitIdentifierFor fragment
      else jsOrEmpty fragment.name
    Except.map
      (fun lit => (identifierString, Node.varDecl identifierString lit))
      (createObjectFromObject (fragmentEntries fragment))

/-- The `nameCounts` table of `createContractFileForAbi` (codegen module,
lines 104-113), read at a given name: the number of fragments in the filtered
list whose (falsy-defaulted) name equals it. -/
def nameCount (l : List Fragment) (n : String) : Nat :=
  (l.filter (fun f => jsOrEmpty f.name = n)).length

/-- The `filteredAbi.forEach` loop of `createContractFileForAbi` (codegen
module, lines 118-134).  The mutable `processedFragments` set keyed by
`JSON.stringify(fragment)` is modelled as a list of already-seen fragment
values: for records parsed from JSON, equal serializations are exactly equal
record values. -/
def processFragments (filteredAbi : List Fragment) :
    List Fragment → List Fragment → Except String (List (String × Node))
  | [], _ => Except.ok []
  | fragment :: rest, processed =>
    if fragment ∈ processed then processFragments filteredAbi rest processed
    else
      match createFragmentDeclaration fragment
        (decide (1 < nameCount filteredAbi (jsOrEmpty fragment.name))) with
      | Except.error e => Except.error e
      | Except.ok pair =>
        match processFragments filteredAbi rest (fragment :: processed) with
        | Except.error e => Except.error e
        | Except.ok tail => Except.ok (pair :: tail)

/-- The `filteredAbi` local of `createContractFileForAbi` (codegen module,
line 102): the fragments with truthy names. -/
def filteredAbi (abis : List Fragment) : List Fragment :=
  abis.filter (fun fragment => jsTruthyStr fragment.name)

/-- Embedding of `createContractFileForAbi` (codegen module, lines 99-152):
filter out fragments with falsy names, emit one declaration per
not-yet-processed fragment with the name-collision-aware identifier, and
append the aggregate default export; an empty identifier list yields `[]`. -/
def createContractFileForAbi (abis : List Fragment) :
    Except String (List Node) :=
  match processFragments (filteredAbi abis) (filteredAbi abis) [] with
  | Except.error e => Except.error e
  | Except.ok pairs =>
    let fragmentDeclarationIdentifiers := pairs.map Prod.fst
    let fragmentDeclarations := pairs.map Prod.snd
    if fragmentDeclarationIdentifiers.length = 0 then Except.ok []
    else
      Except.ok
        (fragmentDeclarations ++
          [Node.exportDefault fragmentDeclarationIdentifiers])

/-- Modelled from the spec: the variant of `createContractFileForAbi` in
which only the type-signature key scheme (the upstream `removeDuplicateAbis`)
is in effect — the inner `processedFragments` set is absent and every
filtered fragment is emitted. -/
def processFragmentsNoDedup (filteredAbi : List Fragment) :
    List Fragment → Except String (List (String × Node))
  | [] => Except.ok []
  | fragment :: rest =>
    match createFragmentDeclaration fragment
      (decide (1 < nameCount filteredAbi (jsOrEmpty fragment.name))) with
    | Except.error e => Except.error e
    | Except.ok pair =>
      match processFragmentsNoDedup filteredAbi rest with
      | Except.error e => Except.error e
      | Except.ok tail => Except.ok (pair :: tail)

/-- Modelled from the spec: `createContractFileForAbi` with the inner
JSON-string deduplication removed (see `processFragmentsNoDedup`). -/
def createContractFileForAbiNoDedup (abis : List Fragment) :
    Except String (List Node) :=
  match processFragmentsNoDedup (filteredAbi abis) (filteredAbi abis) with
  | Except.error e => Except.error e
  | Except.ok pairs =>
    let fragmentDeclarationIdentifiers := pairs.map Prod.fst
    let fragmentDeclarations := pairs.map Prod.snd
    if fragmentDeclarationIdentifiers.length = 0 then Except.ok []
    else
      Except.ok
        (fragmentDeclarations ++
          [Node.exportDefault fragmentDeclarationIdentifiers])

/-- The per-destination driver step of `main` (src/index.ts, lines 98-120):
deduplicate, generate, skip the write when the node list is empty, and treat
a raised error as caught-and-logged (no file written). `none` means no output
file is written for the destination. -/
def generateOutput (abis : List Fragment) : Option (List Node) :=
  match createContractFileForAbi (removeDuplicateAbis abis) with
  | Except.error _ => none
  | Except.ok nodes => if nodes.length = 0 then none else some nodes

/-- The identifiers referenced by the aggregate default export nodes of an
emitted node list. -/
def aggregateIds : List Node → List String
  | [] => []
  | Node.varDecl _ _ :: rest => aggregateIds rest
  | Node.exportDefault ids :: rest => ids ++ aggregateIds rest

/-- Every identifier occurring in a node: the bound identifier of a
declaration, or the referenced identifiers of the aggregate export. -/
def nodeIdentifiers : Node → List String
  | Node.varDecl i _ => [i]
  | Node.exportDefault ids => ids

/-- All identifiers occurring in an emitted node list. -/
def allIdentifiers : List Node → List String
  | [] => []
  | n :: rest => nodeIdentifiers n ++ allIdentifiers rest

/-- Whether a node is a `const` declaration (as opposed to the aggregate
export). -/
def isVarDecl : Node → Bool
  | Node.varDecl _ _ => true
  | Node.exportDefault _ => false

/-- The identifier the pipeline assigns to a named fragment, given the
filtered destination-group list used for name counting. -/
def idFor (filteredAbi : List Fragment) (f : Fragment) : String :=
  if 1 < nameCount filteredAbi (jsOrEmpty f.name) then explicitIdentifierFor f
  else jsOrEmpty f.name

/-- Modelled from the spec: the Canonical Key
`name ':' kind ':' sorted(inputTypes) ':' sorted(outputTypes)`, with an
absent name mapped to empty text and an absent outputs list mapped to the
empty list. -/
def canonicalKeySpec (f : Fragment) : String :=
  (f.name.getD "") ++ ":" ++ f.type ++ ":" ++
    String.intercalate "," (sortStrings (f.inputs.map Param.type)) ++ ":" ++
    String.intercalate "," (sortStrings ((f.outputs.getD []).map Param.type))

/-- Modelled from the spec: a legal binding name — a nonempty string whose
first character is a letter, underscore or dollar sign and whose remaining
characters are alphanumeric, underscore or dollar sign. -/
def isLegalIdentifier (s : String) : Bool :=
  match s.data with
  | [] => false
  | c :: rest =>
    (c.isAlpha || c = '_' || c = '$') &&
      rest.all (fun d => d.isAlphanum || d = '_' || d = '$')

/-! ### Basic lemmas about the JavaScript helpers and the key function -/

theorem jsOrEmpty_eq_getD (o : Option String) : jsOrEmpty o = o.getD "" := by
  cases o with
  | none => rfl
  | some s =>
    by_cases h : s = ""
    · simp [jsOrEmpty, h]
    · simp [jsOrEmpty, h]

theorem jsTruthyStr_iff (o : Option String) :
    jsTruthyStr o = true ↔ jsOrEmpty o ≠ "" := by
  cases o with
  | none => simp [jsTruthyStr, jsOrEmpty]
  | some s =>
    by_cases h : s = ""
    · simp [jsTruthyStr, jsOrEmpty, h]
    · simp [jsTruthyStr, jsOrEmpty, h]

theorem sortStrings_eq_of_perm {l₁ l₂ : List String} (h : l₁.Perm l₂) :
    sortStrings l₁ = sortStrings l₂ := by
  have h₁ : List.Sorted (fun a b : String => a ≤ b) (sortStrings l₁) :=
    List.sorted_insertionSort _ l₁
  have h₂ : List.Sorted (fun a b : String => a ≤ b) (sortStrings l₂) :=
    List.sorted_insertionSort _ l₂
  have hp : (sortStrings l₁).Perm (sortStrings l₂) :=
    ((List.perm_insertionSort _ l₁).trans h).trans
      (List.perm_insertionSort _ l₂).symm
  exact List.eq_of_perm_of_sorted hp h₁ h₂

theorem key_eq_spec (abi : Fragment) : getAbiKey abi = canonicalKeySpec abi := by
  unfold getAbiKey canonicalKeySpec
  rw [jsOrEmpty_eq_getD]
  by_cases ht : abi.type = ""
  · cases ho : abi.outputs <;> simp [ht, ho, sortStrings, String.intercalate]
  · cases ho : abi.outputs <;> simp [ht, ho, sortStrings, String.intercalate]

/-- Keys of fragments that agree on name and kind and whose input and output
type lists agree as multisets are equal. -/
theorem key_eq_of_perm {f g : Fragment}
    (hn : f.name = g.name) (ht : f.type = g.type)
    (hi : (f.inputs.map Param.type).Perm (g.inputs.map Param.type))
    (ho : ((f.outputs.getD []).map Param.type).Perm
      ((g.outputs.getD []).map Param.type)) :
    getAbiKey f = getAbiKey g := by
  rw [key_eq_spec, key_eq_spec]
  unfold canonicalKeySpec
  rw [hn, ht, sortStrings_eq_of_perm hi, sortStrings_eq_of_perm ho]

/-! ### Claim C2: totality of the literal builder -/

/-- C2: the claim states that `createLiteralFor` is total and in particular
maps `null` to a null literal.  On the code this fails: the `case null:` arm
of `switch (typeof value)` compares the string returned by `typeof` against
the value `null` and never matches, so a `null` value reaches
`createObjectFromObject`, where `Object.entries(null)` raises a `TypeError`.
This theorem evaluates the embedded code at the failing input `null` and
records the intact behaviour on the other scalar shapes. -/
theorem createLiteralFor_not_total_at_null :
    createLiteralFor JSValue.null =
      Except.error "TypeError: Cannot convert undefined or null to object" ∧
    (∀ n : Int, createLiteralFor (JSValue.num n) =
      Except.ok (Lit.strLit "not yet implemented")) ∧
    (∀ s, createLiteralFor (JSValue.str s) = Except.ok (Lit.strLit s)) ∧
    (∀ b, createLiteralFor (JSValue.boolean b) =
      Except.ok (Lit.boolLit b)) := by
  refine ⟨by simp [createLiteralFor], fun n => by simp [createLiteralFor],
    fun s => by simp [createLiteralFor], fun b => ?_⟩
  cases b <;> simp [createLiteralFor]

/-! ### Claim C3: the fragment key function -/

/-- C3: `getAbiKey` is pure and total over the `Fragment` shape and returns
exactly `name ':' kind ':' sorted(inputTypes) ':' sorted(outputTypes)`, with
an absent name mapped to empty text and an absent outputs list mapped to the
empty list; type lists are sorted by a stable, locale-independent ordinal
comparison (modelled by a stable sort over code-point order, which agrees
with the UTF-16 code-unit order of the JavaScript default sort on the ASCII
type names of ABIs). -/
theorem getAbiKey_is_canonical_key (abi : Fragment) :
    getAbiKey abi = canonicalKeySpec abi :=
  key_eq_spec abi

/-! ### Lemmas about the deduplicator -/

theorem removeDuplicateAbisGo_sublist (l : List Fragment) (seen : List String) :
    (removeDuplicateAbisGo l seen).Sublist l := by
  induction l generalizing seen with
  | nil => simp [removeDuplicateAbisGo]
  | cons a rest ih =>
    by_cases h : getAbiKey a ∈ seen
    · simp only [removeDuplicateAbisGo, if_pos h]
      exact (ih seen).cons a
    · simp only [removeDuplicateAbisGo, if_neg h]
      exact (ih _).cons₂ a

theorem removeDuplicateAbisGo_keys (l : List Fragment) (seen : List String) :
    ((removeDuplicateAbisGo l seen).map getAbiKey).Nodup ∧
    ∀ k ∈ (removeDuplicateAbisGo l seen).map getAbiKey, k ∉ seen := by
  induction l generalizing seen with
  | nil => simp [removeDuplicateAbisGo]
  | cons a rest ih =>
    by_cases h : getAbiKey a ∈ seen
    · simpa only [removeDuplicateAbisGo, if_pos h] using ih seen
    · obtain ⟨h1, h2⟩ := ih (getAbiKey a :: seen)
      simp only [removeDuplicateAbisGo, if_neg h, List.map_cons]
      constructor
      · refine List.nodup_cons.mpr ⟨fun hmem => ?_, h1⟩
        exact (h2 _ hmem) (List.mem_cons_self _ _)
      · intro k hk
        rcases List.mem_cons.mp hk with rfl | hk'
        · exact h
        · exact fun hks => (h2 k hk') (List.mem_cons_of_mem _ hks)

theorem removeDuplicateAbisGo_complete (l : List Fragment) (seen : List String) :
    ∀ a ∈ l, getAbiKey a ∈ seen ∨
      getAbiKey a ∈ (removeDuplicateAbisGo l seen).map getAbiKey := by
  induction l generalizing seen with
  | nil => intro a ha; cases ha
  | cons b rest ih =>
    intro a ha
    by_cases h : getAbiKey b ∈ seen
    · simp only [removeDuplicateAbisGo, if_pos h]
      rcases List.mem_cons.mp ha with rfl | ha'
      · exact Or.inl h
      · exact ih seen a ha'
    · simp only [removeDuplicateAbisGo, if_neg h, List.map_cons]
      rcases List.mem_cons.mp ha with rfl | ha'
      · exact Or.inr (List.mem_cons_self _ _)
      · rcases ih (getAbiKey b :: seen) a ha' with hs | hmem
        · rcases List.mem_cons.mp hs with he | hs'
          · exact Or.inr (he ▸ List.mem_cons_self _ _)
          · exact Or.inl hs'
        · exact Or.inr (List.mem_cons_of_mem _ hmem)

theorem removeDuplicateAbisGo_first (l : List Fragment) (seen : List String) :
    ∀ b ∈ removeDuplicateAbisGo l seen,
      getAbiKey b ∉ seen ∧
      ∃ l₁ l₂, l = l₁ ++ b :: l₂ ∧ ∀ c ∈ l₁, getAbiKey c ≠ getAbiKey b := by
  induction l generalizing seen with
  | nil => intro b hb; simp [removeDuplicateAbisGo] at hb
  | cons a rest ih =>
    intro b hb
    by_cases h : getAbiKey a ∈ seen
    · rw [removeDuplicateAbisGo, if_pos h] at hb
      obtain ⟨hb1, l₁, l₂, rfl, hall⟩ := ih seen b hb
      refine ⟨hb1, a :: l₁, l₂, rfl, ?_⟩
      intro c hc
      rcases List.mem_cons.mp hc with rfl | hc'
      · exact fun hkey => hb1 (hkey ▸ h)
      · exact hall c hc'
    · rw [removeDuplicateAbisGo, if_neg h] at hb
      rcases List.mem_cons.mp hb with rfl | hb'
      · exact ⟨h, [], rest, rfl, by simp⟩
      · obtain ⟨hb1, l₁, l₂, rfl, hall⟩ := ih (getAbiKey a :: seen) b hb'
        have hbseen : getAbiKey b ∉ seen :=
          fun hs => hb1 (List.mem_cons_of_mem _ hs)
        have hbna : getAbiKey b ≠ getAbiKey a :=
          fun he => hb1 (he ▸ List.mem_cons_self _ _)
        refine ⟨hbseen, a :: l₁, l₂, rfl, ?_⟩
        intro c hc
        rcases List.mem_cons.mp hc with rfl | hc'
        · exact fun he => hbna he.symm
        · exact hall c hc'

theorem removeDuplicateAbisGo_drop (g : Fragment) (l tail : List Fragment)
    (seen : List String) :
    (getAbiKey g ∈ seen ∨ ∃ a ∈ l, getAbiKey a = getAbiKey g) →
    removeDuplicateAbisGo (l ++ g :: tail) seen =
      removeDuplicateAbisGo (l ++ tail) seen := by
  induction l generalizing seen with
  | nil =>
    intro h
    rcases h with hs | ⟨a, ha, _⟩
    · simp only [List.nil_append, removeDuplicateAbisGo, if_pos hs]
    · cases ha
  | cons a rest ih =>
    intro h
    by_cases hka : getAbiKey a ∈ seen
    · simp only [List.cons_append, removeDuplicateAbisGo, if_pos hka]
      apply ih
      rcases h with hs | ⟨c, hc, hkey⟩
      · exact Or.inl hs
      · rcases List.mem_cons.mp hc with rfl | hc'
        · exact Or.inl (hkey ▸ hka)
        · exact Or.inr ⟨c, hc', hkey⟩
    · simp only [List.cons_append, removeDuplicateAbisGo, if_neg hka]
      congr 1
      apply ih
      rcases h with hs | ⟨c, hc, hkey⟩
      · exact Or.inl (List.mem_cons_of_mem _ hs)
      · rcases List.mem_cons.mp hc with rfl | hc'
        · exact Or.inl (hkey ▸ List.mem_cons_self _ _)
        · exact Or.inr ⟨c, hc', hkey⟩

/-! ### Claim C6: the deduplicator keeps exactly the first occurrences -/

/-- C6: `removeDuplicateAbis` is a pure transform returning the sublist of
its input (relative order preserved, input untouched) consisting of exactly
those fragments whose Canonical Key has not appeared earlier: the surviving
keys are pairwise distinct, every input key is represented, and every
survivor is the first element of the input carrying its key. -/
theorem removeDuplicateAbis_first_occurrence_wins (abis : List Fragment) :
    (removeDuplicateAbis abis).Sublist abis ∧
    ((removeDuplicateAbis abis).map getAbiKey).Nodup ∧
    (∀ a ∈ abis, getAbiKey a ∈ (removeDuplicateAbis abis).map getAbiKey) ∧
    (∀ b ∈ removeDuplicateAbis abis,
      ∃ l₁ l₂, abis = l₁ ++ b :: l₂ ∧
        ∀ c ∈ l₁, getAbiKey c ≠ getAbiKey b) := by
  refine ⟨removeDuplicateAbisGo_sublist abis [],
    (removeDuplicateAbisGo_keys abis []).1, ?_, ?_⟩
  · intro a ha
    rcases removeDuplicateAbisGo_complete abis [] a ha with h | h
    · cases h
    · exact h
  · intro b hb
    exact (removeDuplicateAbisGo_first abis [] b hb).2

/-! ### Claim C5: input order independence of the key and deduplication -/

/-- C5: two fragments differing only in the internal order of their
parameter lists (same name, same kind, same multisets of input and output
types) get the same Canonical Key; in any destination-group list where the
first of them occurs before the second, the second is removed by
`removeDuplicateAbis` (its presence changes nothing), and with the first at
the head of the group it survives as the head of the result. -/
theorem key_order_independent_dedup (f g : Fragment)
    (hn : f.name = g.name) (ht : f.type = g.type)
    (hi : (f.inputs.map Param.type).Perm (g.inputs.map Param.type))
    (ho : ((f.outputs.getD []).map Param.type).Perm
      ((g.outputs.getD []).map Param.type)) :
    getAbiKey f = getAbiKey g ∧
    (∀ l₁ l₂ l₃, removeDuplicateAbis ((l₁ ++ f :: l₂) ++ g :: l₃) =
      removeDuplicateAbis ((l₁ ++ f :: l₂) ++ l₃)) ∧
    (∀ l₂ l₃, ∃ rest,
      removeDuplicateAbis (f :: (l₂ ++ g :: l₃)) = f :: rest) := by
  have hk : getAbiKey f = getAbiKey g := key_eq_of_perm hn ht hi ho
  refine ⟨hk, ?_, ?_⟩
  · intro l₁ l₂ l₃
    unfold removeDuplicateAbis
    exact removeDuplicateAbisGo_drop g (l₁ ++ f :: l₂) l₃ []
      (Or.inr ⟨f, by simp, hk⟩)
  · intro l₂ l₃
    unfold removeDuplicateAbis
    rw [removeDuplicateAbisGo, if_neg (List.not_mem_nil _)]
    exact ⟨_, rfl⟩

/-! ### The literal builder succeeds on fragment records -/

theorem literalsForProps_nil : literalsForProps [] = Except.ok [] := by
  simp [literalsForProps]

theorem literalsForProps_single (k : String) (v : JSValue)
    (h : ∃ lit, createLiteralFor v = Except.ok lit) :
    ∃ ls, literalsForProps [(k, v)] = Except.ok ls := by
  obtain ⟨lit, hl⟩ := h
  exact ⟨[(k, lit)], by simp [literalsForProps, hl]⟩

theorem literalsForProps_append :
    ∀ l₁ l₂ : List (String × JSValue),
    (∃ a, literalsForProps l₁ = Except.ok a) →
    (∃ b, literalsForProps l₂ = Except.ok b) →
    ∃ c, literalsForProps (l₁ ++ l₂) = Except.ok c := by
  intro l₁
  induction l₁ with
  | nil => intro l₂ _ h₂; simpa using h₂
  | cons p rest ih =>
    intro l₂ h₁ h₂
    obtain ⟨k, v⟩ := p
    obtain ⟨a, ha⟩ := h₁
    cases hv : createLiteralFor v with
    | error e => simp [literalsForProps, hv] at ha
    | ok lv =>
      cases hr : literalsForProps rest with
      | error e => simp [literalsForProps, hv, hr] at ha
      | ok lr =>
        obtain ⟨c, hc⟩ := ih l₂ ⟨lr, hr⟩ h₂
        exact ⟨(k, lv) :: c, by simp [literalsForProps, hv, hc]⟩

theorem paramEntries_ok (p : Param) :
    ∃ ls, literalsForProps (paramEntries p) = Except.ok ls := by
  obtain ⟨pn, pt, pi, pit⟩ := p
  cases pn <;> cases pi <;> cases pit <;>
    simp [paramEntries, literalsForProps, createLiteralFor]

theorem createObjectFromObject_eq (l : List (String × JSValue))
    (ls : List (String × Lit)) (h : literalsForProps l = Except.ok ls) :
    createObjectFromObject l = Except.ok (Lit.objectLit ls) := by
  simp [createObjectFromObject, h, Except.map]

theorem paramValue_ok (p : Param) :
    ∃ lit, createLiteralFor (paramValue p) = Except.ok lit := by
  obtain ⟨ls, hls⟩ := paramEntries_ok p
  exact ⟨Lit.objectLit ls, by
    simp [paramValue, createLiteralFor, createObjectFromObject_eq _ _ hls]⟩

theorem paramList_ok (ps : List Param) :
    ∃ ls, literalsForList (ps.map paramValue) = Except.ok ls := by
  induction ps with
  | nil => exact ⟨[], by simp [literalsForList]⟩
  | cons p rest ih =>
    obtain ⟨lp, hp⟩ := paramValue_ok p
    obtain ⟨ls, hls⟩ := ih
    exact ⟨lp :: ls, by simp [literalsForList, hp, hls]⟩

theorem fragmentEntries_ok (f : Fragment) :
    ∃ lit, createObjectFromObject (fragmentEntries f) = Except.ok lit := by
  obtain ⟨fn, ft, fins, fouts, fsm, fan⟩ := f
  have e1 : ∃ a, literalsForProps
      (match fn with
       | none => []
       | some n => [("name", JSValue.str n)]) = Except.ok a := by
    cases fn with
    | none => exact ⟨[], literalsForProps_nil⟩
    | some n =>
      exact literalsForProps_single _ _
        ⟨Lit.strLit n, by simp [createLiteralFor]⟩
  have e2 : ∃ a, literalsForProps
      [("type", JSValue.str ft),
       ("inputs", JSValue.arr (fins.map paramValue))] = Except.ok a := by
    obtain ⟨ls, hls⟩ := paramList_ok fins
    exact ⟨[("type", Lit.strLit ft), ("inputs", Lit.arrayLit ls)],
      by simp [literalsForProps, createLiteralFor, hls, Except.map]⟩
  have e3 : ∃ a, literalsForProps
      (match fouts with
       | none => []
       | some outs => [("outputs", JSValue.arr (outs.map paramValue))]) =
      Except.ok a := by
    cases fouts with
    | none => exact ⟨[], literalsForProps_nil⟩
    | some outs =>
      obtain ⟨ls, hls⟩ := paramList_ok outs
      exact ⟨[("outputs", Lit.arrayLit ls)],
        by simp [literalsForProps, createLiteralFor, hls, Except.map]⟩
  have e4 : ∃ a, literalsForProps
      (match fsm with
       | none => []
       | some s => [("stateMutability", JSValue.str s)]) = Except.ok a := by
    cases fsm with
    | none => exact ⟨[], literalsForProps_nil⟩
    | some s =>
      exact literalsForProps_single _ _
        ⟨Lit.strLit s, by simp [createLiteralFor]⟩
  have e5 : ∃ a, literalsForProps
      (match fan with
       | none => []
       | some b => [("anonymous", JSValue.boolean b)]) = Except.ok a := by
    cases fan with
    | none => exact ⟨[], literalsForProps_nil⟩
    | some b =>
      refine literalsForProps_single _ _ ⟨Lit.boolLit b, ?_⟩
      cases b <;> simp [createLiteralFor]
  have hall := literalsForProps_append _ _
    (literalsForProps_append _ _
      (literalsForProps_append _ _
        (literalsForProps_append _ _ e1 e2) e3) e4) e5
  obtain ⟨c, hc⟩ := hall
  exact ⟨Lit.objectLit c, createObjectFromObject_eq _ c hc⟩

/-! ### The declaration builder and the forEach loop on named fragments -/

theorem createFragmentDeclaration_ok (f : Fragment) (b : Bool)
    (h : jsTruthyStr f.name = true) :
    ∃ lit, createFragmentDeclaration f b =
      Except.ok ((if b then explicitIdentifierFor f else jsOrEmpty f.name),
        Node.varDecl (if b then explicitIdentifierFor f else jsOrEmpty f.name)
          lit) := by
  obtain ⟨lit, hl⟩ := fragmentEntries_ok f
  exact ⟨lit, by simp [createFragmentDeclaration, h, hl, Except.map]⟩

theorem createFragmentDeclaration_idFor (A : List Fragment) (f : Fragment)
    (h : jsTruthyStr f.name = true) :
    ∃ lit, createFragmentDeclaration f
        (decide (1 < nameCount A (jsOrEmpty f.name))) =
      Except.ok (idFor A f, Node.varDecl (idFor A f) lit) := by
  obtain ⟨lit, hl⟩ :=
    createFragmentDeclaration_ok f
      (decide (1 < nameCount A (jsOrEmpty f.name))) h
  refine ⟨lit, ?_⟩
  rw [hl]
  by_cases hc : 1 < nameCount A (jsOrEmpty f.name) <;> simp [idFor, hc]

/-- The fragments the forEach loop actually emits: the first occurrence of
each distinct fragment value, given the initially processed values. -/
def valueDedup : List Fragment → List Fragment → List Fragment
  | [], _ => []
  | f :: rest, processed =>
    if f ∈ processed then valueDedup rest processed
    else f :: valueDedup rest (f :: processed)

theorem valueDedup_subset :
    ∀ l processed : List Fragment, ∀ f ∈ valueDedup l processed, f ∈ l := by
  intro l
  induction l with
  | nil => intro processed f hf; simp [valueDedup] at hf
  | cons a rest ih =>
    intro processed f hf
    by_cases hmem : a ∈ processed
    · rw [valueDedup, if_pos hmem] at hf
      exact List.mem_cons_of_mem _ (ih processed f hf)
    · rw [valueDedup, if_neg hmem] at hf
      rcases List.mem_cons.mp hf with rfl | hf'
      · exact List.mem_cons_self _ _
      · exact List.mem_cons_of_mem _ (ih _ f hf')

theorem mem_valueDedup :
    ∀ l processed : List Fragment, ∀ f, f ∈ l → f ∉ processed →
      f ∈ valueDedup l processed := by
  intro l
  induction l with
  | nil => intro processed f hf; cases hf
  | cons a rest ih =>
    intro processed f hf hnp
    by_cases hmem : a ∈ processed
    · rw [valueDedup, if_pos hmem]
      rcases List.mem_cons.mp hf with rfl | hf'
      · exact absurd hmem hnp
      · exact ih processed f hf' hnp
    · rw [valueDedup, if_neg hmem]
      rcases List.mem_cons.mp hf with rfl | hf'
      · exact List.mem_cons_self _ _
      · by_cases hfa : f = a
        · exact hfa ▸ List.mem_cons_self _ _
        · refine List.mem_cons_of_mem _ (ih _ f hf' ?_)
          intro hc
          rcases List.mem_cons.mp hc with he | hc'
          · exact hfa he
          · exact hnp hc'

theorem valueDedup_eq_self :
    ∀ l processed : List Fragment, l.Nodup →
      (∀ f ∈ l, f ∉ processed) → valueDedup l processed = l := by
  intro l
  induction l with
  | nil => intro processed _ _; rfl
  | cons a rest ih =>
    intro processed hnd hdisj
    have hmem : a ∉ processed := hdisj a (List.mem_cons_self _ _)
    rw [valueDedup, if_neg hmem]
    congr 1
    refine ih (a :: processed) (List.Nodup.of_cons hnd) ?_
    intro f hf hc
    rcases List.mem_cons.mp hc with rfl | hc'
    · exact (List.nodup_cons.mp hnd).1 hf
    · exact hdisj f (List.mem_cons_of_mem _ hf) hc'

theorem processFragments_ok (A : List Fragment) :
    ∀ l processed, (∀ f ∈ l, jsTruthyStr f.name = true) →
    ∃ pairs, processFragments A l processed = Except.ok pairs ∧
      pairs.map Prod.fst = (valueDedup l processed).map (idFor A) ∧
      ∀ p ∈ pairs, ∃ f ∈ valueDedup l processed, ∃ lit,
        p = (idFor A f, Node.varDecl (idFor A f) lit) := by
  intro l
  induction l with
  | nil =>
    intro processed _
    exact ⟨[], by simp [processFragments], by simp [valueDedup], by simp⟩
  | cons a rest ih =>
    intro processed h
    by_cases hmem : a ∈ processed
    · obtain ⟨pairs, h1, h2, h3⟩ :=
        ih processed (fun f hf => h f (List.mem_cons_of_mem _ hf))
      refine ⟨pairs, ?_, ?_, ?_⟩
      · simpa [processFragments, hmem] using h1
      · simpa [valueDedup, hmem] using h2
      · intro p hp
        obtain ⟨f, hf, lit, hpe⟩ := h3 p hp
        exact ⟨f, by simpa [valueDedup, hmem] using hf, lit, hpe⟩
    · have ha := h a (List.mem_cons_self _ _)
      obtain ⟨lit, hdecl⟩ := createFragmentDeclaration_idFor A a ha
      obtain ⟨pairs, h1, h2, h3⟩ :=
        ih (a :: processed) (fun f hf => h f (List.mem_cons_of_mem _ hf))
      refine ⟨(idFor A a, Node.varDecl (idFor A a) lit) :: pairs, ?_, ?_, ?_⟩
      · simp [processFragments, hmem, hdecl, h1]
      · simp [valueDedup, hmem, h2]
      · intro p hp
        rcases List.mem_cons.mp hp with rfl | hp'
        · refine ⟨a, ?_, lit, rfl⟩
          rw [valueDedup, if_neg hmem]
          exact List.mem_cons_self _ _
        · obtain ⟨f, hf, lit2, hpe⟩ := h3 p hp'
          refine ⟨f, ?_, lit2, hpe⟩
          rw [valueDedup, if_neg hmem]
          exact List.mem_cons_of_mem _ hf

theorem processFragmentsNoDedup_ok (A : List Fragment) :
    ∀ l, (∀ f ∈ l, jsTruthyStr f.name = true) →
    ∃ pairs, processFragmentsNoDedup A l = Except.ok pairs ∧
      pairs.map Prod.fst = l.map (idFor A) ∧
      ∀ p ∈ pairs, ∃ f ∈ l, ∃ lit,
        p = (idFor A f, Node.varDecl (idFor A f) lit) := by
  intro l
  induction l with
  | nil => exact fun _ => ⟨[], by simp [processFragmentsNoDedup], by simp, by simp⟩
  | cons a rest ih =>
    intro h
    have ha := h a (List.mem_cons_self _ _)
    obtain ⟨lit, hdecl⟩ := createFragmentDeclaration_idFor A a ha
    obtain ⟨pairs, h1, h2, h3⟩ :=
      ih (fun f hf => h f (List.mem_cons_of_mem _ hf))
    refine ⟨(idFor A a, Node.varDecl (idFor A a) lit) :: pairs, ?_, ?_, ?_⟩
    · simp [processFragmentsNoDedup, hdecl, h1]
    · simp [h2]
    · intro p hp
      rcases List.mem_cons.mp hp with rfl | hp'
      · exact ⟨a, List.mem_cons_self _ _, lit, rfl⟩
      · obtain ⟨f, hf, lit2, hpe⟩ := h3 p hp'
        exact ⟨f, List.mem_cons_of_mem _ hf, lit2, hpe⟩

theorem processFragments_eq_noDedup (A : List Fragment) :
    ∀ l processed, l.Nodup → (∀ f ∈ l, f ∉ processed) →
    processFragments A l processed = processFragmentsNoDedup A l := by
  intro l
  induction l with
  | nil =>
    intro processed _ _
    simp [processFragments, processFragmentsNoDedup]
  | cons a rest ih =>
    intro processed hnd hdisj
    have hmem : a ∉ processed := hdisj a (List.mem_cons_self _ _)
    have htail : processFragments A rest (a :: processed) =
        processFragmentsNoDedup A rest := by
      refine ih (a :: processed) (List.Nodup.of_cons hnd) ?_
      intro f hf hc
      rcases List.mem_cons.mp hc with rfl | hc'
      · exact (List.nodup_cons.mp hnd).1 hf
      · exact hdisj f (List.mem_cons_of_mem _ hf) hc'
    simp [processFragments, processFragmentsNoDedup, hmem, htail]

/-! ### The assembled pipeline -/

theorem createContractFileForAbi_spec (abis : List Fragment) :
    ∃ pairs,
      processFragments (filteredAbi abis) (filteredAbi abis) [] =
        Except.ok pairs ∧
      pairs.map Prod.fst =
        (valueDedup (filteredAbi abis) []).map (idFor (filteredAbi abis)) ∧
      (∀ p ∈ pairs, ∃ f ∈ valueDedup (filteredAbi abis) [], ∃ lit,
        p = (idFor (filteredAbi abis) f,
          Node.varDecl (idFor (filteredAbi abis) f) lit)) ∧
      createContractFileForAbi abis = Except.ok
        (if (pairs.map Prod.fst).length = 0 then []
         else pairs.map Prod.snd ++
           [Node.exportDefault (pairs.map Prod.fst)]) := by
  have hT : ∀ f ∈ filteredAbi abis, jsTruthyStr f.name = true :=
    fun f hf => (List.mem_filter.mp hf).2
  obtain ⟨pairs, h1, h2, h3⟩ :=
    processFragments_ok (filteredAbi abis) (filteredAbi abis) [] hT
  refine ⟨pairs, h1, h2, h3, ?_⟩
  unfold createContractFileForAbi
  rw [h1]
  by_cases hlen : (pairs.map Prod.fst).length = 0
  · simp [hlen]
  · rw [if_neg hlen]
    exact if_neg hlen

theorem aggregateIds_append (l₁ l₂ : List Node) :
    aggregateIds (l₁ ++ l₂) = aggregateIds l₁ ++ aggregateIds l₂ := by
  induction l₁ with
  | nil => rfl
  | cons n rest ih => cases n <;> simp [aggregateIds, ih]

theorem aggregateIds_of_varDecls (pairs : List (String × Node))
    (h : ∀ p ∈ pairs, ∃ i lit, p.2 = Node.varDecl i lit) :
    aggregateIds (pairs.map Prod.snd) = [] := by
  induction pairs with
  | nil => rfl
  | cons p rest ih =>
    obtain ⟨i, lit, hp⟩ := h p (List.mem_cons_self _ _)
    rw [List.map_cons, hp]
    simp only [aggregateIds]
    exact ih (fun q hq => h q (List.mem_cons_of_mem _ hq))

theorem aggregateIds_eq (abis : List Fragment) :
    ∃ nodes, createContractFileForAbi abis = Except.ok nodes ∧
      aggregateIds nodes =
        (valueDedup (filteredAbi abis) []).map (idFor (filteredAbi abis)) := by
  obtain ⟨pairs, _, h2, h3, h4⟩ := createContractFileForAbi_spec abis
  refine ⟨_, h4, ?_⟩
  by_cases hlen : (pairs.map Prod.fst).length = 0
  · rw [if_pos hlen]
    rw [List.length_map] at hlen
    rw [List.length_eq_zero.mp hlen] at h2
    rw [← h2]
    rfl
  · rw [if_neg hlen, aggregateIds_append,
      aggregateIds_of_varDecls pairs
        (fun p hp => by
          obtain ⟨f, _, lit, hpe⟩ := h3 p hp
          exact ⟨idFor (filteredAbi abis) f, lit, by rw [hpe]⟩)]
    simp only [List.nil_append, aggregateIds, List.append_nil]
    exact h2

theorem pipeline_decl_mem (abis : List Fragment) (f : Fragment)
    (hf : f ∈ filteredAbi abis) :
    ∃ nodes, createContractFileForAbi abis = Except.ok nodes ∧
      ∃ lit, Node.varDecl (idFor (filteredAbi abis) f) lit ∈ nodes := by
  obtain ⟨pairs, _, h2, h3, h4⟩ := createContractFileForAbi_spec abis
  have hfv : f ∈ valueDedup (filteredAbi abis) [] :=
    mem_valueDedup _ [] f hf (List.not_mem_nil f)
  have hid : idFor (filteredAbi abis) f ∈ pairs.map Prod.fst := by
    rw [h2]
    exact List.mem_map_of_mem _ hfv
  obtain ⟨p, hp, hp1⟩ := List.mem_map.mp hid
  obtain ⟨f2, _, lit, hpe⟩ := h3 p hp
  have hp2 : p.2 = Node.varDecl (idFor (filteredAbi abis) f) lit := by
    have e1 : p.1 = idFor (filteredAbi abis) f2 := by rw [hpe]
    have e2 : p.2 = Node.varDecl (idFor (filteredAbi abis) f2) lit := by
      rw [hpe]
    rw [e2, ← e1, hp1]
  refine ⟨_, h4, lit, ?_⟩
  have hlen : ¬((pairs.map Prod.fst).length = 0) := by
    intro h0
    rw [List.length_eq_zero.mp h0] at hid
    cases hid
  rw [if_neg hlen]
  exact List.mem_append_left _ (hp2 ▸ List.mem_map_of_mem Prod.snd hp)

theorem countP_varDecls (pairs : List (String × Node))
    (h : ∀ p ∈ pairs, ∃ i lit, p.2 = Node.varDecl i lit) :
    (pairs.map Prod.snd).countP isVarDecl = pairs.length := by
  induction pairs with
  | nil => rfl
  | cons p rest ih =>
    obtain ⟨i, lit, hp⟩ := h p (List.mem_cons_self _ _)
    rw [List.map_cons, List.countP_cons, hp,
      ih (fun q hq => h q (List.mem_cons_of_mem _ hq))]
    simp [isVarDecl]

theorem allIdentifiers_of_varDecls (pairs : List (String × Node))
    (h : ∀ p ∈ pairs, ∃ i lit, p = (i, Node.varDecl i lit)) :
    ∀ s ∈ allIdentifiers (pairs.map Prod.snd), s ∈ pairs.map Prod.fst := by
  induction pairs with
  | nil => intro s hs; simp [allIdentifiers] at hs
  | cons p rest ih =>
    intro s hs
    obtain ⟨i, lit, hp⟩ := h p (List.mem_cons_self _ _)
    rw [List.map_cons, hp] at hs
    simp only [allIdentifiers, nodeIdentifiers] at hs
    rcases List.mem_cons.mp (by simpa using hs) with rfl | hs'
    · rw [hp]
      exact List.mem_cons_self _ _
    · exact List.mem_cons_of_mem _
        (ih (fun q hq => h q (List.mem_cons_of_mem _ hq)) s hs')

theorem nameCount_le_one_of_nodup (l : List Fragment)
    (h : (l.map (fun g => jsOrEmpty g.name)).Nodup) (n : String) :
    nameCount l n ≤ 1 := by
  unfold nameCount
  induction l with
  | nil => simp
  | cons a rest ih =>
    rw [List.map_cons, List.nodup_cons] at h
    by_cases ha : jsOrEmpty a.name = n
    · rw [List.filter_cons_of_pos (by simpa using ha)]
      have hempty : rest.filter (fun g => decide (jsOrEmpty g.name = n)) = [] := by
        refine List.filter_eq_nil_iff.mpr ?_
        intro b hb hbn
        refine h.1 ?_
        have : jsOrEmpty b.name = n := by simpa using hbn
        rw [ha, ← this]
        exact List.mem_map_of_mem _ hb
      rw [hempty]
      simp
    · rw [List.filter_cons_of_neg (by simpa using ha)]
      exact ih h.2

theorem nameCount_pos_of_mem (l : List Fragment) (f : Fragment) (hf : f ∈ l) :
    1 ≤ nameCount l (jsOrEmpty f.name) := by
  unfold nameCount
  exact List.length_pos_of_mem
    (List.mem_filter.mpr ⟨hf, by simp⟩)

theorem allIdentifiers_append (l₁ l₂ : List Node) :
    allIdentifiers (l₁ ++ l₂) = allIdentifiers l₁ ++ allIdentifiers l₂ := by
  induction l₁ with
  | nil => rfl
  | cons n rest ih => cases n <;> simp [allIdentifiers, nodeIdentifiers, ih]

/-! ### Claim C7: unnamed fragments are excluded before identifier work -/

/-- C7: `createContractFileForAbi` never raises (in particular the
`UnidentifiableFragment` throw inside `createFragmentDeclaration` is
unreachable in this pipeline, since fragments with falsy names are filtered
out first), and every identifier occurring in the emitted declarations or in
the aggregate export is the assigned identifier of a fragment of the input
whose name is present and nonempty. -/
theorem unnamed_fragment_never_assigned_identifier (abis : List Fragment) :
    ∃ nodes, createContractFileForAbi abis = Except.ok nodes ∧
      ∀ s ∈ allIdentifiers nodes, ∃ f, f ∈ abis ∧ jsTruthyStr f.name = true ∧
        s = idFor (filteredAbi abis) f := by
  obtain ⟨pairs, _, h2, h3, h4⟩ := createContractFileForAbi_spec abis
  refine ⟨_, h4, ?_⟩
  intro s hs
  by_cases hlen : (pairs.map Prod.fst).length = 0
  · rw [if_pos hlen] at hs
    simp [allIdentifiers] at hs
  · rw [if_neg hlen] at hs
    have hins : s ∈ pairs.map Prod.fst := by
      rw [allIdentifiers_append] at hs
      rcases List.mem_append.mp hs with hl | hr
      · exact allIdentifiers_of_varDecls pairs
          (fun p hp => by
            obtain ⟨f, _, lit, hpe⟩ := h3 p hp
            exact ⟨idFor (filteredAbi abis) f, lit, hpe⟩) s hl
      · simpa [allIdentifiers, nodeIdentifiers] using hr
    rw [h2] at hins
    obtain ⟨f, hfv, hfe⟩ := List.mem_map.mp hins
    have hffil : f ∈ filteredAbi abis := valueDedup_subset _ [] f hfv
    obtain ⟨hfabis, hft⟩ := List.mem_filter.mp hffil
    exact ⟨f, hfabis, hft, hfe.symm⟩

/-! ### Claim C8: groups without named fragments produce no output -/

/-- C8: for a destination group containing no named fragments (in particular
the empty group), `createContractFileForAbi` returns the empty node list,
and the driver step treats this as a normal non-error outcome and writes no
output file for the destination. -/
theorem unnamed_group_writes_nothing (abis : List Fragment)
    (h : ∀ f ∈ abis, jsTruthyStr f.name = false) :
    createContractFileForAbi abis = Except.ok [] ∧
    generateOutput abis = none := by
  have hfil : ∀ l : List Fragment, (∀ f ∈ l, jsTruthyStr f.name = false) →
      createContractFileForAbi l = Except.ok [] := by
    intro l hl
    have hemp : filteredAbi l = [] := by
      unfold filteredAbi
      exact List.filter_eq_nil_iff.mpr (fun f hf => by simp [hl f hf])
    unfold createContractFileForAbi
    rw [hemp]
    simp [processFragments]
  refine ⟨hfil abis h, ?_⟩
  have hsub := removeDuplicateAbisGo_sublist abis []
  have h2 : ∀ f ∈ removeDuplicateAbis abis, jsTruthyStr f.name = false :=
    fun f hf => h f (hsub.subset hf)
  unfold generateOutput
  rw [hfil _ h2]
  rfl

/-- A constructor fragment without a name, for the C8 witness. -/
def ctorFragment : Fragment :=
  { name := none, type := "constructor", inputs := [], outputs := none,
    stateMutability := none, anonymous := none }

/-- Witness for the C8 theorem: a group holding only an unnamed constructor
fragment yields the empty node list and no output file. -/
theorem unnamed_group_writes_nothing_witness :
    createContractFileForAbi [ctorFragment] = Except.ok [] ∧
    generateOutput [ctorFragment] = none :=
  unnamed_group_writes_nothing [ctorFragment] (by decide)

/-! ### Claim C9: the inner JSON dedup removes nothing after the outer one -/

/-- C9: on a group already deduplicated by `removeDuplicateAbis` (all
Canonical Keys distinct, hence all fragment values — and therefore all JSON
serializations — distinct), the inner JSON-string deduplication of
`createContractFileForAbi` removes nothing: the pipeline coincides with the
variant having no inner dedup, and emits exactly one declaration per named
surviving fragment. -/
theorem inner_dedup_noop_after_outer_dedup (abis : List Fragment) :
    createContractFileForAbi (removeDuplicateAbis abis) =
      createContractFileForAbiNoDedup (removeDuplicateAbis abis) ∧
    ∃ nodes, createContractFileForAbi (removeDuplicateAbis abis) =
      Except.ok nodes ∧
      nodes.countP isVarDecl =
        (filteredAbi (removeDuplicateAbis abis)).length := by
  have hkeys := (removeDuplicateAbisGo_keys abis []).1
  have hnd : (removeDuplicateAbis abis).Nodup := hkeys.of_map
  have hfnd : (filteredAbi (removeDuplicateAbis abis)).Nodup := hnd.filter _
  constructor
  · unfold createContractFileForAbi createContractFileForAbiNoDedup
    rw [processFragments_eq_noDedup _ _ [] hfnd (fun f _ => List.not_mem_nil f)]
  · obtain ⟨pairs, _, h2, h3, h4⟩ :=
      createContractFileForAbi_spec (removeDuplicateAbis abis)
    refine ⟨_, h4, ?_⟩
    have hvd : valueDedup (filteredAbi (removeDuplicateAbis abis)) [] =
        filteredAbi (removeDuplicateAbis abis) :=
      valueDedup_eq_self _ [] hfnd (fun f _ => List.not_mem_nil f)
    have hplen : pairs.length =
        (filteredAbi (removeDuplicateAbis abis)).length := by
      have := congrArg List.length h2
      simpa [hvd] using this
    by_cases hlen : (pairs.map Prod.fst).length = 0
    · rw [if_pos hlen]
      rw [List.length_map] at hlen
      have h0 : (([] : List Node)).countP isVarDecl = 0 := rfl
      rw [h0, ← hplen, hlen]
    · rw [if_neg hlen, List.countP_append,
        countP_varDecls pairs (fun p hp => by
          obtain ⟨f, _, lit, hpe⟩ := h3 p hp
          exact ⟨idFor (filteredAbi (removeDuplicateAbis abis)) f, lit,
            by rw [hpe]⟩)]
      have h1 : ([Node.exportDefault (pairs.map Prod.fst)]).countP
          isVarDecl = 0 := rfl
      rw [h1, ← hplen]
      omega

/-! ### Claim C10: repeated name with empty inputs gets a trailing underscore -/

/-- C10: a named fragment whose name occurs more than once in the filtered
list and whose inputs list is empty is assigned the identifier
`name ++ "_"`: the joined type suffix is the empty string. -/
theorem repeated_name_empty_inputs_id (abis : List Fragment) (f : Fragment)
    (hf : f ∈ filteredAbi abis)
    (hc : 1 < nameCount (filteredAbi abis) (jsOrEmpty f.name))
    (hin : f.inputs = []) :
    ∃ nodes, createContractFileForAbi abis = Except.ok nodes ∧
      ∃ lit, Node.varDecl (jsOrEmpty f.name ++ "_") lit ∈ nodes := by
  obtain ⟨nodes, hn, lit, hmem⟩ := pipeline_decl_mem abis f hf
  refine ⟨nodes, hn, lit, ?_⟩
  have hid : idFor (filteredAbi abis) f = jsOrEmpty f.name ++ "_" := by
    unfold idFor explicitIdentifierFor
    rw [if_pos hc, hin, List.map_nil]
    rw [show String.intercalate "_" ([] : List String) = "" from rfl]
    rw [String.append_empty]
  rwa [hid] at hmem

/-- A duplicated zero-argument fragment pair for the C10 witness: two
fragments named `pause`, both with empty inputs, distinguished only by their
state mutability. -/
def pauseA : Fragment :=
  { name := some "pause", type := "function", inputs := [], outputs := none,
    stateMutability := some "nonpayable", anonymous := none }

/-- The second `pause` fragment for the C10 witness. -/
def pauseB : Fragment :=
  { name := some "pause", type := "function", inputs := [], outputs := none,
    stateMutability := some "payable", anonymous := none }

/-- Witness for the C10 theorem: the first `pause` fragment receives the
identifier with a single trailing underscore. -/
theorem repeated_name_empty_inputs_id_witness :
    ∃ nodes, createContractFileForAbi [pauseA, pauseB] = Except.ok nodes ∧
      ∃ lit, Node.varDecl (jsOrEmpty pauseA.name ++ "_") lit ∈ nodes :=
  repeated_name_empty_inputs_id [pauseA, pauseB] pauseA (by decide)
    (by decide) rfl

/-! ### Claim C4: the identifier assignment scheme -/

/-- A `mint` fragment with a two-dimensional array input, for the C4
counterexample. -/
def mintMatrix : Fragment :=
  { name := some "mint", type := "function",
    inputs := [⟨none, "uint256[][]", none, none⟩],
    outputs := none, stateMutability := none, anonymous := none }

/-- A `mint` fragment with an address input, for the C4 counterexample. -/
def mintAddress : Fragment :=
  { name := some "mint", type := "function",
    inputs := [⟨none, "address", none, none⟩],
    outputs := none, stateMutability := none, anonymous := none }

/-- C4 (counterexample): not every assigned identifier is a legal binding
name.  With two fragments named `mint`, the one with input type
`uint256[][]` is assigned `mint_uint256Array[]` — only the first `[]` is
rewritten to `Array` (JavaScript `String.replace` with a string pattern
replaces a single occurrence), and the remaining brackets make the
identifier illegal. -/
theorem assigned_identifier_can_be_illegal :
    (∃ nodes, createContractFileForAbi [mintMatrix, mintAddress] =
        Except.ok nodes ∧
      aggregateIds nodes = ["mint_uint256Array[]", "mint_address"]) ∧
    isLegalIdentifier "mint_uint256Array[]" = false := by
  obtain ⟨nodes, hn, hids⟩ := aggregateIds_eq [mintMatrix, mintAddress]
  refine ⟨⟨nodes, hn, ?_⟩, by decide⟩
  rw [hids]
  decide

/-- C4 (amended): for each named fragment of the destination group, the
emitted declaration binds the name verbatim when the name occurs exactly
once in the filtered list, and otherwise the name followed by an underscore
and the input types joined with underscores, each with its first `[]`
rewritten to `Array`; the identifier need not be a legal binding name. -/
theorem identifier_scheme (abis : List Fragment) (f : Fragment)
    (hf : f ∈ filteredAbi abis) :
    ∃ nodes, createContractFileForAbi abis = Except.ok nodes ∧
      ∃ lit, Node.varDecl
        (if nameCount (filteredAbi abis) (jsOrEmpty f.name) = 1
         then jsOrEmpty f.name
         else jsOrEmpty f.name ++ "_" ++ String.intercalate "_"
           (f.inputs.map
             (fun input => jsReplaceFirst input.type "[]" "Array")))
        lit ∈ nodes := by
  obtain ⟨nodes, hn, lit, hmem⟩ := pipeline_decl_mem abis f hf
  refine ⟨nodes, hn, lit, ?_⟩
  have hge := nameCount_pos_of_mem (filteredAbi abis) f hf
  have hid : idFor (filteredAbi abis) f =
      (if nameCount (filteredAbi abis) (jsOrEmpty f.name) = 1
       then jsOrEmpty f.name
       else jsOrEmpty f.name ++ "_" ++ String.intercalate "_"
         (f.inputs.map
           (fun input => jsReplaceFirst input.type "[]" "Array"))) := by
    unfold idFor explicitIdentifierFor
    rcases Nat.lt_or_ge 1 (nameCount (filteredAbi abis) (jsOrEmpty f.name))
      with hlt | hle
    · rw [if_pos hlt, if_neg (by omega)]
    · have h1 : nameCount (filteredAbi abis) (jsOrEmpty f.name) = 1 := by
        omega
      rw [if_neg (by omega), if_pos h1]
  rwa [hid] at hmem

/-- The `transfer` fragment with two inputs, for the C4 witness. -/
def transferTwo : Fragment :=
  { name := some "transfer", type := "function",
    inputs := [⟨none, "address", none, none⟩, ⟨none, "uint256", none, none⟩],
    outputs := none, stateMutability := none, anonymous := none }

/-- The `transfer` fragment with three inputs, for the C4 witness. -/
def transferThree : Fragment :=
  { name := some "transfer", type := "function",
    inputs := [⟨none, "address", none, none⟩, ⟨none, "address", none, none⟩,
      ⟨none, "uint256", none, none⟩],
    outputs := none, stateMutability := none, anonymous := none }

/-- Witness for the amended C4 theorem: the two `transfer` fragments of the
claim receive `transfer_address_uint256` and
`transfer_address_address_uint256`. -/
theorem identifier_scheme_witness :
    (∃ nodes, createContractFileForAbi [transferTwo, transferThree] =
        Except.ok nodes ∧
      ∃ lit, Node.varDecl "transfer_address_uint256" lit ∈ nodes) ∧
    (∃ nodes, createContractFileForAbi [transferTwo, transferThree] =
        Except.ok nodes ∧
      ∃ lit, Node.varDecl "transfer_address_address_uint256" lit ∈ nodes) :=
  ⟨identifier_scheme [transferTwo, transferThree] transferTwo (by decide),
    identifier_scheme [transferTwo, transferThree] transferThree (by decide)⟩

/-! ### Claim C1: identifier uniqueness and residual collisions -/

/-- A `foo` fragment with a `uint256` output, for the C1 counterexample. -/
def fooOutUint : Fragment :=
  { name := some "foo", type := "function", inputs := [],
    outputs := some [⟨none, "uint256", none, none⟩],
    stateMutability := none, anonymous := none }

/-- A `foo` fragment with an `address` output, for the C1 counterexample. -/
def fooOutAddr : Fragment :=
  { name := some "foo", type := "function", inputs := [],
    outputs := some [⟨none, "address", none, none⟩],
    stateMutability := none, anonymous := none }

/-- C1 (counterexample): two fragments with the same name and input types
but different outputs have distinct Canonical Keys, so both survive
`removeDuplicateAbis`; `createContractFileForAbi` then assigns both the
identifier `foo_` and emits both declarations without raising anything — the
assigned identifiers are not pairwise distinct and no `DuplicateIdentifier`
error is surfaced. -/
theorem duplicate_identifiers_emitted_silently :
    removeDuplicateAbis [fooOutUint, fooOutAddr] = [fooOutUint, fooOutAddr] ∧
    (∃ nodes, createContractFileForAbi [fooOutUint, fooOutAddr] =
        Except.ok nodes ∧
      aggregateIds nodes = ["foo_", "foo_"]) ∧
    ¬(["foo_", "foo_"] : List String).Nodup := by
  obtain ⟨nodes, hn, hids⟩ := aggregateIds_eq [fooOutUint, fooOutAddr]
  refine ⟨by decide, ⟨nodes, hn, ?_⟩, by decide⟩
  rw [hids]
  decide

/-- C1 (amended): when every surviving named fragment of the destination
group has a distinct name, the assigned identifiers (the names verbatim) are
pairwise distinct; two surviving fragments sharing both name and input-type
tuple instead receive the same identifier and are both emitted with no
error. -/
theorem identifiers_distinct_when_names_unique (abis : List Fragment)
    (h : ((filteredAbi abis).map (fun g => jsOrEmpty g.name)).Nodup) :
    ∃ nodes, createContractFileForAbi abis = Except.ok nodes ∧
      (aggregateIds nodes).Nodup := by
  obtain ⟨nodes, hn, hids⟩ := aggregateIds_eq abis
  refine ⟨nodes, hn, ?_⟩
  rw [hids, valueDedup_eq_self _ [] h.of_map (fun f _ => List.not_mem_nil f)]
  have hmapeq : (filteredAbi abis).map (idFor (filteredAbi abis)) =
      (filteredAbi abis).map (fun g => jsOrEmpty g.name) := by
    refine List.map_congr_left ?_
    intro g hg
    have hle := nameCount_le_one_of_nodup _ h (jsOrEmpty g.name)
    have hnot : ¬1 < nameCount (filteredAbi abis) (jsOrEmpty g.name) := by
      omega
    unfold idFor
    rw [if_neg hnot]
  rw [hmapeq]
  exact h

/-- An `approve` fragment, for the C1 witness. -/
def approveFrag : Fragment :=
  { name := some "approve", type := "function", inputs := [],
    outputs := none, stateMutability := none, anonymous := none }

/-- A `burn` fragment, for the C1 witness. -/
def burnFrag : Fragment :=
  { name := some "burn", type := "function", inputs := [], outputs := none,
    stateMutability := none, anonymous := none }

/-- Witness for the amended C1 theorem at a two-name group. -/
theorem identifiers_distinct_when_names_unique_witness :
    ∃ nodes, createContractFileForAbi [approveFrag, burnFrag] =
        Except.ok nodes ∧
      (aggregateIds nodes).Nodup :=
  identifiers_distinct_when_names_unique [approveFrag, burnFrag] (by decide)

/-- The `transfer` fragment with inputs in `(address, uint256)` order, for
the C5 witness. -/
def transferAB : Fragment :=
  { name := some "transfer", type := "function",
    inputs := [⟨none, "address", none, none⟩, ⟨none, "uint256", none, none⟩],
    outputs := some [], stateMutability := none, anonymous := none }

/-- The `transfer` fragment with inputs in `(uint256, address)` order, for
the C5 witness. -/
def transferBA : Fragment :=
  { name := some "transfer", type := "function",
    inputs := [⟨none, "uint256", none, none⟩, ⟨none, "address", none, none⟩],
    outputs := some [], stateMutability := none, anonymous := none }

/-- Witness for the C5 theorem at two fragments with swapped inputs. -/
theorem key_order_independent_dedup_witness :
    getAbiKey transferAB = getAbiKey transferBA ∧
    removeDuplicateAbis (([] ++ transferAB :: []) ++ transferBA :: []) =
      removeDuplicateAbis (([] ++ transferAB :: []) ++ []) ∧
    ∃ rest, removeDuplicateAbis (transferAB :: ([] ++ transferBA :: [])) =
      transferAB :: rest := by
  have hperm : (transferAB.inputs.map Param.type).Perm
      (transferBA.inputs.map Param.type) := by
    exact List.Perm.swap "uint256" "address" []
  have houts : ((transferAB.outputs.getD []).map Param.type).Perm
      ((transferBA.outputs.getD []).map Param.type) := by
    exact List.Perm.refl []
  have h := key_order_independent_dedup transferAB transferBA rfl rfl
    hperm houts
  exact ⟨h.1, h.2.1 [] [] [], h.2.2 [] []⟩

end Adita
